import Mathlib

/-!
# Verification of check-projects (uralys/check-projects)

A shallow embedding, in Lean 4, of the core of the `check-projects` Go
program: the ignore-pattern matcher, the repository-discovery walk, the
git status classifier, and the bounded-concurrency scheduler, together
with theorems settling the specification claims about them.

Conventions of the embedding:
* Strings are Lean `String`s; where Go iterates over bytes we iterate
  over `Char`s (all literals involved are ASCII, where the two coincide).
* Filesystem paths constructed by the recursive scanner are modelled as
  segment lists (`List String`); Go renders such a path by joining the
  segments with "/".  `filepath.Join base name` is `base ++ [name]` and
  `filepath.Rel base full` is `full.drop base.length` (in the walk,
  `full` always extends `base`, so Go's `Rel` never fails there).
* External effects (running `git`, reading directories, resolving
  symlinks, expanding `~`) are modelled as oracle fields of environment
  structures: each oracle records exactly the observable outcome of the
  corresponding external call.
* Fallible Go calls are modelled with `Except`/`Option`.
-/

namespace CheckProjects

/-! ## Path matcher

Embedding of `internal/scanner/scanner.go` (`isIgnored`, lines 395-424)
and of the Go standard library function `path/filepath.Match` that it
calls (an external collaborator of the repository; translated from the
Go standard library source, Unix rules).  The `Match` loops are written
structurally over a fuel argument; every loop of the Go code strictly
consumes its pattern (or chunk) per iteration, so the supplied fuel
(length + 1) always suffices and the out-of-fuel branch is unreachable.
-/

/-- Go `strings.HasPrefix`, on the character lists of the strings
(kernel-computable, unlike the byte-position loops of core `String`). -/
def goHasPre (s pre : String) : Bool :=
  pre.data.isPrefixOf s.data

/-- Go `strings.HasSuffix`. -/
def goHasSuf (s suf : String) : Bool :=
  suf.data.isSuffixOf s.data

/-- Go `strings.TrimSuffix(pattern, "/*")` as used by `isIgnored`:
drop the final two characters. -/
def goDropRight2 (s : String) : String :=
  String.mk (s.data.take (s.data.length - 2))

/-- Go `strings.Contains(s, "*")` specialised to one character. -/
def goHasChar (s : String) (c : Char) : Bool :=
  s.data.contains c

/-- Go `filepath.Base` restricted to a single string: empty path gives
".", trailing separators are stripped, the part after the last "/" is
returned, and a path of only separators gives "/". -/
def baseName (path : String) : String :=
  if path = "" then "."
  else
    let cs := (path.data.reverse.dropWhile (fun c => c = '/')).reverse
    let last := (cs.reverse.takeWhile (fun c => c ≠ '/')).reverse
    if last.isEmpty then "/" else String.mk last

/-- `scanChunk` helper: strip the leading run of `*`s, reporting whether
there was at least one. -/
def dropStars : List Char → Bool × List Char
  | [] => (false, [])
  | c :: rest => if c = '*' then (true, (dropStars rest).2) else (false, c :: rest)

/-- `scanChunk` helper: split off the chunk up to (not including) the
next `*` that is outside a `[...]` range; a `\` escapes the following
character. -/
def chunkSplit (inrange : Bool) : List Char → List Char × List Char
  | [] => ([], [])
  | c :: rest =>
    if c = '\\' then
      match rest with
      | [] => ([c], [])
      | d :: rest2 =>
        let p := chunkSplit inrange rest2
        (c :: d :: p.1, p.2)
    else if c = '[' then
      let p := chunkSplit true rest
      (c :: p.1, p.2)
    else if c = ']' then
      let p := chunkSplit false rest
      (c :: p.1, p.2)
    else if c = '*' ∧ inrange = false then ([], c :: rest)
    else
      let p := chunkSplit inrange rest
      (c :: p.1, p.2)

/-- Go `scanChunk`: gets the next segment of the pattern, returning
(star, chunk, rest of pattern). -/
def scanChunk (pattern : List Char) : Bool × List Char × List Char :=
  let s := dropStars pattern
  let p := chunkSplit false s.2
  (s.1, p.1, p.2)

/-- Go `getEsc`: get a possibly-escaped character from the inside of a
range; errors (bad pattern) when the chunk is exhausted, starts with `-`
or `]`, ends right after the character, or has a trailing `\`. -/
def getEsc : List Char → Except Unit (Char × List Char)
  | [] => .error ()
  | c :: rest =>
    if c = '-' ∨ c = ']' then .error ()
    else if c = '\\' then
      match rest with
      | [] => .error ()
      | d :: r2 => if r2.isEmpty then .error () else .ok (d, r2)
    else if rest.isEmpty then .error () else .ok (c, rest)

/-- The range-parsing loop inside `matchChunk`'s `[` case: consume
`lo`-`hi` ranges until the closing `]` (which needs at least one range
before it), accumulating whether the character `r` fell into any range. -/
def parseRangesF : Nat → Char → Bool → Nat → List Char → Except Unit (Bool × List Char)
  | 0, _, _, _, _ => .error ()
  | fuel + 1, r, acc, nrange, chunk =>
    if chunk.headD ' ' = ']' ∧ nrange > 0 then .ok (acc, chunk.tail)
    else
      match getEsc chunk with
      | .error _ => .error ()
      | .ok (lo, ch1) =>
        match ch1 with
        | '-' :: ch2 =>
          match getEsc ch2 with
          | .error _ => .error ()
          | .ok (hi, ch3) =>
            parseRangesF fuel r (acc || (decide (lo ≤ r) && decide (r ≤ hi))) (nrange + 1) ch3
        | _ => parseRangesF fuel r (acc || (lo == r)) (nrange + 1) ch1

/-- Go `matchChunk`: match a chunk (no `*`s) against the head of `s`;
`.ok (some rest)` is a match leaving `rest`, `.ok none` a clean failure,
`.error` a malformed pattern.  After a failure the loop keeps scanning
the chunk for well-formedness without consuming `s` (the `failed`
flag). -/
def matchChunkF : Nat → List Char → List Char → Bool → Except Unit (Option (List Char))
  | 0, _, _, _ => .error ()
  | _ + 1, [], s, failed => .ok (if failed then none else some s)
  | fuel + 1, c :: rest, s, failed0 =>
    let failed := failed0 || s.isEmpty
    if c = '[' then
      let r := if failed then ' ' else s.headD ' '
      let s1 := if failed then s else s.tail
      let neg : Bool × List Char :=
        match rest with
        | '^' :: chr => (true, chr)
        | _ => (false, rest)
      match parseRangesF (neg.2.length + 1) r false 0 neg.2 with
      | .error _ => .error ()
      | .ok (mtch, ch2) => matchChunkF fuel ch2 s1 (failed || (mtch == neg.1))
    else if c = '?' then
      if failed then matchChunkF fuel rest s true
      else matchChunkF fuel rest s.tail (s.headD ' ' == '/')
    else if c = '\\' then
      match rest with
      | [] => .error ()
      | d :: rest2 =>
        if failed then matchChunkF fuel rest2 s true
        else matchChunkF fuel rest2 s.tail (!(d == s.headD ' '))
    else
      if failed then matchChunkF fuel rest s true
      else matchChunkF fuel rest s.tail (!(c == s.headD ' '))

/-- `matchChunk` with its always-sufficient fuel. -/
def matchChunk (chunk s : List Char) : Except Unit (Option (List Char)) :=
  matchChunkF (chunk.length + 1) chunk s false

/-- The loop at the end of Go `Match` that checks the remaining pattern
chunks are syntactically valid before returning `false`. -/
def tailValidateF : Nat → List Char → Except Unit Bool
  | 0, _ => .error ()
  | _ + 1, [] => .ok false
  | fuel + 1, p =>
    let sc := scanChunk p
    match matchChunk sc.2.1 [] with
    | .error _ => .error ()
    | .ok _ => tailValidateF fuel sc.2.2

/-- The inner `star` loop of Go `Match`: try matching the chunk from
every later position of `name` that does not cross a `/`.  `k`
continues the outer loop, `tv` is the fall-through result. -/
def starLoop (k : List Char → Except Unit Bool) (tv : Except Unit Bool)
    (chunk rest : List Char) : List Char → Except Unit Bool
  | [] => tv
  | c :: t =>
    if c = '/' then tv
    else
      match matchChunk chunk t with
      | .error _ => .error ()
      | .ok (some u) =>
        if rest.isEmpty && !u.isEmpty then starLoop k tv chunk rest t
        else k u
      | .ok none => starLoop k tv chunk rest t

/-- The outer `Pattern` loop of Go `filepath.Match`. -/
def goMatchF : Nat → List Char → List Char → Except Unit Bool
  | 0, _, _ => .error ()
  | _ + 1, [], name => .ok name.isEmpty
  | fuel + 1, pattern, name =>
    let sc := scanChunk pattern
    let star := sc.1
    let chunk := sc.2.1
    let rest := sc.2.2
    if star && chunk.isEmpty then .ok (!name.contains '/')
    else
      let tv := tailValidateF (rest.length + 1) rest
      match matchChunk chunk name with
      | .ok (some t) =>
        if t.isEmpty || !rest.isEmpty then goMatchF fuel rest t
        else if star then starLoop (goMatchF fuel rest) tv chunk rest name
        else tv
      | .ok none =>
        if star then starLoop (goMatchF fuel rest) tv chunk rest name
        else tv
      | .error _ => .error ()

/-- Go `filepath.Match pattern name`: `.ok b` is (matched, nil error),
`.error ()` is `ErrBadPattern`. -/
def goMatch (pattern name : String) : Except Unit Bool :=
  goMatchF (pattern.data.length + 1) pattern.data name.data

/-- The way `isIgnored` consumes `filepath.Match`: a match counts only
when the error is nil and the result is true. -/
def matchBool (pattern name : String) : Bool :=
  match goMatch pattern name with
  | .ok b => b
  | .error _ => false

/-- The body of one iteration of the `isIgnored` loop
(`internal/scanner/scanner.go:395-424`): does `projectPath` match the
single configured `pattern`?  Three forms are tried in order: exact
equality (full path or basename), directory wildcard `p/*` (prefix
match), and a general glob (tried against the full path and against the
basename; a glob error is absorbed and counts as no match). -/
def pathMatches (projectPath pattern : String) : Bool :=
  (projectPath == pattern || baseName projectPath == pattern)
  || (goHasSuf pattern "/*" &&
      (let pre := goDropRight2 pattern
       goHasPre projectPath (pre ++ "/") || projectPath == pre))
  || (goHasChar pattern '*' &&
      (matchBool pattern projectPath || matchBool pattern (baseName projectPath)))

/-- `isIgnored` (`internal/scanner/scanner.go:395-424`): first matching
pattern wins; no pattern matching means not ignored. -/
def isIgnored (projectPath : String) : List String → Bool
  | [] => false
  | pattern :: rest => pathMatches projectPath pattern || isIgnored projectPath rest

/-- C8: the ignore matcher is a pure, case-sensitive function of its two
string arguments (it is a Lean function of exactly those arguments, with
no filesystem oracle in sight); it matches "_archives/foo" against
"_archives/*", "foo-old" against "*-old", and "foo" against "foo", but
not "foobar" against "foo" (nor "Foo" against "foo", case-sensitivity);
and a candidate matching no pattern is not ignored. -/
theorem claimC8 :
    pathMatches "_archives/foo" "_archives/*" = true ∧
    pathMatches "foo-old" "*-old" = true ∧
    pathMatches "foo" "foo" = true ∧
    pathMatches "foobar" "foo" = false ∧
    pathMatches "Foo" "foo" = false ∧
    ∀ (path : String) (pats : List String),
      (∀ p ∈ pats, pathMatches path p = false) → isIgnored path pats = false := by
  refine ⟨by decide, by decide, by decide, by decide, by decide, ?_⟩
  intro path pats h
  induction pats with
  | nil => rfl
  | cons p rest ih =>
    have hp : pathMatches path p = false := h p (by simp)
    have hr : isIgnored path rest = false := ih (fun q hq => h q (by simp [hq]))
    simp [isIgnored, hp, hr]

/-- Witness for the quantified part of C8 at a concrete input. -/
theorem claimC8_w : isIgnored "zzz" ["foo", "*-old"] = false :=
  claimC8.2.2.2.2.2 "zzz" ["foo", "*-old"] (by decide)

/-- C10: the matcher is total on all string inputs; when the glob match
errors (invalid pattern) on both the full candidate path and its
basename, the error is absorbed: the glob form contributes no match and
the pattern's verdict is decided by the remaining (exact and
directory-wildcard) forms alone, after which `isIgnored` simply moves on
to the remaining patterns. -/
theorem claimC10 :
    ∀ (path pat : String) (rest : List String),
      goMatch pat path = .error () →
      goMatch pat (baseName path) = .error () →
      pathMatches path pat =
        ((path == pat || baseName path == pat)
          || (goHasSuf pat "/*" &&
              (goHasPre path (goDropRight2 pat ++ "/") || path == goDropRight2 pat)))
      ∧ isIgnored path (pat :: rest) = (pathMatches path pat || isIgnored path rest) := by
  intro path pat rest h1 h2
  constructor
  · simp only [pathMatches, matchBool, h1, h2]
    cases hx : (path == pat || baseName path == pat) <;>
      cases hy : goHasSuf pat "/*" <;> simp
  · rfl

/-- Witness for C10: the bad glob pattern "[*" errors, is absorbed, and
the candidate is not ignored by it. -/
theorem claimC10_w :
    goMatch "[*" "x" = .error () ∧ pathMatches "x" "[*" = false := by
  have h := claimC10 "x" "[*" [] rfl rfl
  refine ⟨rfl, ?_⟩
  rw [h.1]
  decide

/-! ## Git status classifier

Embedding of `internal/git/status.go`.  Each external `git` invocation
is an oracle field of `GitEnv` recording its observable outcome.
-/

/-- Go `strings.Contains` on character lists: is `pat` a contiguous
sublist? -/
def listHasSub (pat : List Char) : List Char → Bool
  | [] => pat.isEmpty
  | c :: t => pat.isPrefixOf (c :: t) || listHasSub pat t

/-- Go `strings.Contains(s, pat)`. -/
def strContains (s pat : String) : Bool :=
  listHasSub pat.data s.data

/-- Go `strings.TrimSpace`. -/
def goTrim (s : String) : String :=
  String.mk ((s.data.dropWhile Char.isWhitespace).reverse.dropWhile Char.isWhitespace).reverse

/-- Go `strings.Split(s, "\n")`, accumulator form. -/
def splitLinesAux (acc : List Char) : List Char → List String
  | [] => [String.mk acc.reverse]
  | c :: t =>
    if c = '\n' then String.mk acc.reverse :: splitLinesAux [] t
    else splitLinesAux (c :: acc) t

/-- Go `strings.Split(s, "\n")`. -/
def splitLines (s : String) : List String := splitLinesAux [] s.data

/-- `StatusType` (`internal/git/status.go:10-19`).  `brokenSymlink` is
the `StatusBrokenSymlink` constant: it is referenced by
`cmd/check-projects/main.go:179` and the reporter, while the constant
declaration itself is in a revision of `status.go` not present under
`src/`; it is the spec's `BrokenLink` classification kind. -/
inductive StatusType where
  | sync
  | unsync
  | error
  | ignored
  | noUpstream
  | brokenSymlink
deriving DecidableEq, Repr

/-- `BranchTracking` (`internal/git/status.go:22-25`). -/
structure BranchTracking where
  branch : String
  message : String
deriving DecidableEq, Repr

/-- `Status` (`internal/git/status.go:28-34`). -/
structure Status where
  type : StatusType
  message : String
  symbol : String
  branch : String
  behindBranches : List BranchTracking
deriving DecidableEq, Repr

/-- Observable outcome of one external command invocation: whether
`cmd.Run()` returned a nil error, and the captured output streams. -/
structure CmdResult where
  ok : Bool
  stdout : String
  stderr : String
deriving DecidableEq, Repr

/-- Oracle environment for one repository: the outcome of every git
invocation `GetStatus`/`GetBranchesTrackingStatus` can make.
`currentBranch` stands for `GetCurrentBranch` (whose error return is
discarded at the call site `status.go:136`; its definition lives in a
revision of `repository.go` not present under `src/`).  `behindProbe b`
is `git rev-list --count b..b@{u}`: `none` for a failed invocation,
otherwise its standard output; `aheadProbe` likewise for
`b@{u}..b`. -/
structure GitEnv where
  currentBranch : String
  branchList : CmdResult
  hasUpstream : String → Bool
  behindProbe : String → Option String
  aheadProbe : String → Option String
  upstreamHead : CmdResult
  statusOut : CmdResult

/-- Building one `BranchTracking` entry
(`internal/git/status.go:106-126`): the ahead count defaults to "0" on a
failed probe, and the message mentions it only when non-"0". -/
def mkTracking (env : GitEnv) (branch behindCount : String) : BranchTracking :=
  let aheadCount :=
    match env.aheadProbe branch with
    | none => "0"
    | some out => goTrim out
  let message :=
    if aheadCount ≠ "0" then
      "behind by " ++ behindCount ++ ", ahead by " ++ aheadCount ++ " commit(s)"
    else
      "behind by " ++ behindCount ++ " commit(s)"
  ⟨branch, message⟩

/-- The per-branch loop of `GetBranchesTrackingStatus`
(`internal/git/status.go:68-128`): blank names are skipped, branches
without an upstream are skipped, a failed behind-probe skips the branch,
and only non-"0", non-empty behind counts contribute an entry.  (The
`git status -b --porcelain` command built at lines 87-89 is never run
and has no observable effect.) -/
def processBranches (env : GitEnv) : List String → List BranchTracking
  | [] => []
  | b :: rest =>
    let branch := goTrim b
    if branch = "" then processBranches env rest
    else if !env.hasUpstream branch then processBranches env rest
    else
      match env.behindProbe branch with
      | none => processBranches env rest
      | some out =>
        let behindCount := goTrim out
        if behindCount ≠ "0" ∧ behindCount ≠ "" then
          mkTracking env branch behindCount :: processBranches env rest
        else processBranches env rest

/-- `GetBranchesTrackingStatus` (`internal/git/status.go:52-131`). -/
def getBranchesTrackingStatus (env : GitEnv) : Except String (List BranchTracking) :=
  if !env.branchList.ok then .error ("failed to get branches: " ++ env.branchList.stderr)
  else .ok (processBranches env (splitLines (goTrim env.branchList.stdout)))

/-- The scan of the `git status` output text
(`internal/git/status.go:186-298`): the cascade of `strings.Contains`
checks, first match wins, `Unknown state` as the catch-all. -/
def classifyOutput (output branch : String) (behindBranches : List BranchTracking) : Status :=
  if strContains output "Changes to be committed:" then
    if strContains output "renamed:" then ⟨.unsync, "Staged renames", "✱ R", branch, behindBranches⟩
    else if strContains output "new file:" then ⟨.unsync, "Staged files", "✱ +", branch, behindBranches⟩
    else ⟨.unsync, "Staged changes", "✱", branch, behindBranches⟩
  else if strContains output "modified:" then ⟨.unsync, "Modified files", "* M", branch, behindBranches⟩
  else if strContains output "deleted:" then ⟨.unsync, "Deleted files", "* D", branch, behindBranches⟩
  else if strContains output "Untracked files:" then ⟨.unsync, "Untracked files", "✱ ✚", branch, behindBranches⟩
  else if strContains output "is ahead of" then ⟨.unsync, "Ahead of remote", "⬆", branch, behindBranches⟩
  else if strContains output "is behind" then ⟨.unsync, "Behind remote", "↓", branch, behindBranches⟩
  else if strContains output "diverged" then ⟨.unsync, "Diverged from remote", "⬆⬆", branch, behindBranches⟩
  else if strContains output "nothing to commit, working tree clean" then ⟨.sync, "Clean", "✔", branch, behindBranches⟩
  else ⟨.unsync, "Unknown state", "*", branch, behindBranches⟩

/-- The stderr test of the upstream check (`internal/git/status.go:155-157`). -/
def noUpstreamMarker (s : String) : Bool :=
  strContains s "no upstream configured" || strContains s "upstream branch"
    || strContains s "no such branch"

/-- `GetStatus` (`internal/git/status.go:134-298`).  Every Go return of
the function is `(&Status{...}, nil)`, so the embedding returns a plain
`Status`. -/
def getStatus (env : GitEnv) : Status :=
  let branch := env.currentBranch
  let behindBranches :=
    match getBranchesTrackingStatus env with
    | .error _ => []
    | .ok l => l
  if !env.upstreamHead.ok && noUpstreamMarker env.upstreamHead.stderr then
    ⟨.noUpstream, "No upstream configured", "⚠ No upstream", branch, behindBranches⟩
  else if !env.statusOut.ok then
    ⟨.error, "Error: " ++ env.statusOut.stderr, "❌", branch, behindBranches⟩
  else classifyOutput env.statusOut.stdout branch behindBranches

/-- The closed set of reason sub-kinds of the spec's classification
taxonomy (plus `clean` and the `unknownChange` catch-all), used to state
the precedence claim. -/
inductive ChangeKind where
  | stagedRename
  | stagedNewFile
  | stagedGeneric
  | modified
  | deleted
  | untracked
  | ahead
  | behind
  | diverged
  | clean
  | unknownChange
deriving DecidableEq, Repr

/-- The spec's ordered decision list over the raw inspection text,
written exactly in the spec's precedence order. -/
def specRules : List ((String → Bool) × ChangeKind) :=
  [(fun o => strContains o "Changes to be committed:" && strContains o "renamed:", .stagedRename),
   (fun o => strContains o "Changes to be committed:" && strContains o "new file:", .stagedNewFile),
   (fun o => strContains o "Changes to be committed:", .stagedGeneric),
   (fun o => strContains o "modified:", .modified),
   (fun o => strContains o "deleted:", .deleted),
   (fun o => strContains o "Untracked files:", .untracked),
   (fun o => strContains o "is ahead of", .ahead),
   (fun o => strContains o "is behind", .behind),
   (fun o => strContains o "diverged", .diverged),
   (fun o => strContains o "nothing to commit, working tree clean", .clean)]

/-- First matching rule wins; no rule matching falls through to the
catch-all `unknownChange`. -/
def firstMatch : List ((String → Bool) × ChangeKind) → String → ChangeKind
  | [], _ => .unknownChange
  | (p, k) :: rest, o => if p o then k else firstMatch rest o

/-- The spec-side classification of an inspection output text. -/
def specClassify (o : String) : ChangeKind := firstMatch specRules o

/-- Reads the classification kind off a `Status` produced by
`classifyOutput`; the eleven result messages of the cascade are pairwise
distinct, so the message determines the kind. -/
def kindOfStatus (st : Status) : ChangeKind :=
  if st.message = "Staged renames" then .stagedRename
  else if st.message = "Staged files" then .stagedNewFile
  else if st.message = "Staged changes" then .stagedGeneric
  else if st.message = "Modified files" then .modified
  else if st.message = "Deleted files" then .deleted
  else if st.message = "Untracked files" then .untracked
  else if st.message = "Ahead of remote" then .ahead
  else if st.message = "Behind remote" then .behind
  else if st.message = "Diverged from remote" then .diverged
  else if st.message = "Clean" then .clean
  else .unknownChange

/-- C2: the output scan of `GetStatus` is exactly the spec's ordered
decision list (first matching rule wins, `unknownChange` the catch-all,
every text classified); in particular an output containing both a
staged-changes block and an untracked-files section is classified as a
staged sub-kind, never as `untracked`. -/
theorem claimC2 :
    ∀ (o b : String) (bb : List BranchTracking),
      kindOfStatus (classifyOutput o b bb) = specClassify o ∧
      (strContains o "Changes to be committed:" = true →
       strContains o "Untracked files:" = true →
       (kindOfStatus (classifyOutput o b bb) = .stagedRename ∨
        kindOfStatus (classifyOutput o b bb) = .stagedNewFile ∨
        kindOfStatus (classifyOutput o b bb) = .stagedGeneric)) := by
  intro o b bb
  have h : kindOfStatus (classifyOutput o b bb) = specClassify o := by
    simp only [specClassify, specRules, firstMatch, classifyOutput]
    by_cases h1 : strContains o "Changes to be committed:" = true
    · by_cases h2 : strContains o "renamed:" = true
      · simp [kindOfStatus, h1, h2]
      · by_cases h3 : strContains o "new file:" = true
        · simp [kindOfStatus, h1, h2, h3]
        · simp [kindOfStatus, h1, h2, h3]
    · by_cases h4 : strContains o "modified:" = true
      · simp [kindOfStatus, h1, h4]
      · by_cases h5 : strContains o "deleted:" = true
        · simp [kindOfStatus, h1, h4, h5]
        · by_cases h6 : strContains o "Untracked files:" = true
          · simp [kindOfStatus, h1, h4, h5, h6]
          · by_cases h7 : strContains o "is ahead of" = true
            · simp [kindOfStatus, h1, h4, h5, h6, h7]
            · by_cases h8 : strContains o "is behind" = true
              · simp [kindOfStatus, h1, h4, h5, h6, h7, h8]
              · by_cases h9 : strContains o "diverged" = true
                · simp [kindOfStatus, h1, h4, h5, h6, h7, h8, h9]
                · by_cases h10 : strContains o "nothing to commit, working tree clean" = true
                  · simp [kindOfStatus, h1, h4, h5, h6, h7, h8, h9, h10]
                  · simp [kindOfStatus, h1, h4, h5, h6, h7, h8, h9, h10]
  refine ⟨h, fun hs _ => ?_⟩
  rw [h]
  simp only [specClassify, specRules, firstMatch]
  by_cases h2 : strContains o "renamed:" = true
  · simp [hs, h2]
  · by_cases h3 : strContains o "new file:" = true
    · simp [hs, h2, h3]
    · simp [hs, h2, h3]

/-- Witness for C2: an output with both a staged block (a new file) and
an untracked-files section classifies as `stagedNewFile`. -/
theorem claimC2_w :
    strContains "Changes to be committed:\n\tnew file: a\nUntracked files:\n\tb" "Changes to be committed:" = true ∧
    strContains "Changes to be committed:\n\tnew file: a\nUntracked files:\n\tb" "Untracked files:" = true ∧
    (kindOfStatus (classifyOutput "Changes to be committed:\n\tnew file: a\nUntracked files:\n\tb" "main" []) = .stagedRename ∨
     kindOfStatus (classifyOutput "Changes to be committed:\n\tnew file: a\nUntracked files:\n\tb" "main" []) = .stagedNewFile ∨
     kindOfStatus (classifyOutput "Changes to be committed:\n\tnew file: a\nUntracked files:\n\tb" "main" []) = .stagedGeneric) :=
  ⟨by decide, by decide,
   (claimC2 "Changes to be committed:\n\tnew file: a\nUntracked files:\n\tb" "main" []).2
     (by decide) (by decide)⟩

/-- C4 (amended): when the upstream comparison fails with a message
explicitly reporting a missing upstream, `GetStatus` returns
`noUpstream` — and does so whatever the status inspection would have
returned (that oracle is not consulted); otherwise, when the status
inspection invocation fails, it returns the error classification whose
message is the captured diagnostic output prefixed with "Error: "; in
both cases a classification value is returned rather than an error. -/
theorem claimC4 :
    ∀ env : GitEnv,
      (env.upstreamHead.ok = false →
       noUpstreamMarker env.upstreamHead.stderr = true →
       (getStatus env).type = .noUpstream ∧
       ∀ r : CmdResult, getStatus { env with statusOut := r } = getStatus env) ∧
      ((env.upstreamHead.ok = true ∨ noUpstreamMarker env.upstreamHead.stderr = false) →
       env.statusOut.ok = false →
       (getStatus env).type = .error ∧
       (getStatus env).message = "Error: " ++ env.statusOut.stderr) := by
  intro env
  constructor
  · intro hok hmark
    constructor
    · simp [getStatus, hok, hmark]
    · intro r
      have hpb : ∀ l, processBranches { env with statusOut := r } l = processBranches env l := by
        intro l
        induction l with
        | nil => rfl
        | cons a rest ih =>
          cases h : env.behindProbe (goTrim a) <;>
            simp [processBranches, mkTracking, h, ih]
      simp [getStatus, getBranchesTrackingStatus, hok, hmark, hpb]
  · rintro (h | h) hst
    · simp [getStatus, h, hst]
    · simp [getStatus, h, hst]

/-- Concrete environment refuting the unprefixed-message reading of C4:
the upstream check succeeds and `git status` fails with stderr "boom". -/
def c4env : GitEnv :=
  { currentBranch := "main"
    branchList := ⟨true, "", ""⟩
    hasUpstream := fun _ => false
    behindProbe := fun _ => none
    aheadProbe := fun _ => none
    upstreamHead := ⟨true, "", ""⟩
    statusOut := ⟨false, "", "boom"⟩ }

/-- Counterexample for C4 as stated: the `InspectionError` message is
not the captured diagnostic output itself ("boom") but carries an
"Error: " prefix. -/
theorem claimC4_cex :
    (getStatus c4env).type = .error ∧ (getStatus c4env).message ≠ "boom" := by
  decide

/-- Concrete environment whose upstream comparison explicitly reports a
missing upstream. -/
def c4envNoUp : GitEnv :=
  { currentBranch := "main"
    branchList := ⟨true, "", ""⟩
    hasUpstream := fun _ => false
    behindProbe := fun _ => none
    aheadProbe := fun _ => none
    upstreamHead := ⟨false, "", "fatal: no upstream configured for branch"⟩
    statusOut := ⟨false, "", "boom"⟩ }

/-- Witness for the amended C4 at concrete environments. -/
theorem claimC4_w :
    (getStatus c4envNoUp).type = .noUpstream ∧
    (getStatus c4env).type = .error ∧
    (getStatus c4env).message = "Error: " ++ "boom" := by
  refine ⟨((claimC4 c4envNoUp).1 rfl (by decide)).1, ?_, ?_⟩
  · exact ((claimC4 c4env).2 (Or.inl rfl) rfl).1
  · exact ((claimC4 c4env).2 (Or.inl rfl) rfl).2

/-- C5: the behind-branch list attached to a status is exactly what
`GetBranchesTrackingStatus` produced (an error degrading to the empty
list), in every classification branch — in particular also when the
primary classification is Clean; every listed branch whose trimmed name
is non-blank, has an upstream, and whose behind-probe yields a non-"0",
non-empty count contributes an entry; a branch whose behind-probe fails
contributes no entry; and probe failures never abort the enumeration
(`GetBranchesTrackingStatus` succeeds whenever the branch listing
does). -/
theorem claimC5 :
    (∀ env : GitEnv,
      (getStatus env).behindBranches =
        (match getBranchesTrackingStatus env with
         | .ok l => l
         | .error _ => [])) ∧
    (∀ (env : GitEnv) (l : List String) (b out : String),
      b ∈ l → goTrim b ≠ "" → env.hasUpstream (goTrim b) = true →
      env.behindProbe (goTrim b) = some out →
      goTrim out ≠ "0" → goTrim out ≠ "" →
      ∃ e ∈ processBranches env l, e.branch = goTrim b) ∧
    (∀ (env : GitEnv) (l : List String) (t : String),
      env.behindProbe t = none → ∀ e ∈ processBranches env l, e.branch ≠ t) ∧
    (∀ env : GitEnv, env.branchList.ok = true →
      getBranchesTrackingStatus env =
        .ok (processBranches env (splitLines (goTrim env.branchList.stdout)))) := by
  have hco : ∀ (o br : String) (bb : List BranchTracking),
      (classifyOutput o br bb).behindBranches = bb := by
    intro o br bb
    simp only [classifyOutput]
    split_ifs <;> rfl
  refine ⟨?_, ?_, ?_, ?_⟩
  · intro env
    cases hg : getBranchesTrackingStatus env with
    | error e => simp only [getStatus, hg] ; split_ifs <;> simp [hco]
    | ok l => simp only [getStatus, hg] ; split_ifs <;> simp [hco]
  · intro env l
    induction l with
    | nil => intro b out hb; exact absurd hb (List.not_mem_nil b)
    | cons a rest ih =>
      intro b out hb hne hup hprobe h0 hemp
      rcases List.mem_cons.mp hb with rfl | hmem
      · refine ⟨mkTracking env (goTrim b) (goTrim out), ?_, rfl⟩
        simp only [processBranches, hne, hup, hprobe]
        simp [h0, hemp]
      · obtain ⟨e, he, hbr⟩ := ih b out hmem hne hup hprobe h0 hemp
        refine ⟨e, ?_, hbr⟩
        simp only [processBranches]
        split_ifs
        · exact he
        · exact he
        · cases hbp : env.behindProbe (goTrim a) with
          | none => exact he
          | some out2 =>
            dsimp only
            split_ifs <;> simp [he]
  · intro env l t hnone
    induction l with
    | nil => intro e he; exact absurd he (List.not_mem_nil e)
    | cons a rest ih =>
      intro e he
      simp only [processBranches] at he
      split_ifs at he
      · exact ih e he
      · exact ih e he
      · cases hbp : env.behindProbe (goTrim a) with
        | none =>
          rw [hbp] at he
          exact ih e he
        | some out2 =>
          rw [hbp] at he
          dsimp only at he
          split_ifs at he
          · rcases List.mem_cons.mp he with rfl | hmem
            · intro hcontra
              rw [show (mkTracking env (goTrim a) (goTrim out2)).branch = goTrim a from rfl] at hcontra
              rw [hcontra] at hbp
              rw [hbp] at hnone
              exact Option.noConfusion hnone
            · exact ih e hmem
          · exact ih e he
  · intro env h
    simp [getBranchesTrackingStatus, h]

/-- Concrete environment for C5: current branch clean, a secondary
branch `feature-x` three commits behind its upstream. -/
def c5env : GitEnv :=
  { currentBranch := "main"
    branchList := ⟨true, "main\nfeature-x\n", ""⟩
    hasUpstream := fun _ => true
    behindProbe := fun b => if b = "feature-x" then some "3\n" else some "0\n"
    aheadProbe := fun _ => some "0\n"
    upstreamHead := ⟨true, "1\n", ""⟩
    statusOut := ⟨true, "On branch main\nnothing to commit, working tree clean\n", ""⟩ }

/-- Witness for C5: a Clean repository still carries the lag entry of
its secondary branch. -/
theorem claimC5_w :
    (getStatus c5env).message = "Clean" ∧
    (∃ e ∈ processBranches c5env (splitLines (goTrim c5env.branchList.stdout)),
       e.branch = goTrim "feature-x") ∧
    (getStatus c5env).behindBranches = [⟨"feature-x", "behind by 3 commit(s)"⟩] := by
  refine ⟨by decide, ?_, by decide⟩
  exact claimC5.2.1 c5env (splitLines (goTrim c5env.branchList.stdout)) "feature-x" "3\n"
    (by decide) (by decide) (by decide) (by decide) (by decide) (by decide)

/-! ## Repository discovery

Embedding of `internal/scanner/scanner.go` (the symlink-aware revision,
lines 181-424 of the concatenated source: `ScanAll`, `scanCategory`,
`scanRecursive`, `scanRecursiveHelper`, `shouldIgnore`, `isIgnored`).

The filesystem seen by the walk is a tree value: a `dir` node carries
the outcome of `git.IsGitRepository` on it (a stat of its `.git` entry)
and its ordered `os.ReadDir` listing; a `symlink` node carries the
absolutized `os.Readlink` target path and the resolved target
(`none` when the target no longer exists, i.e. `os.Lstat` fails).  A
directory that cannot be listed can be modelled as `file` (the walk
skips it, as the code returns on a `ReadDir` error).  Chained symlinks
are not modelled: a symlink's resolved target is a final node. -/
inductive FSNode where
  | file : FSNode
  | dir : Bool → List (String × FSNode) → FSNode
  | symlink : List String → Option FSNode → FSNode
deriving Repr

/-- `Project` (`internal/scanner/scanner.go:192-200`).  `name` is the
relative-path identity as a segment list (Go renders it joined with
"/"); `repository` is `some` of the repository path when a
`git.Repository` handle was created, `none` when the `Repository` field
is nil (broken symlink). -/
structure Project where
  name : List String
  path : List String
  category : String
  repository : Option (List String)
  isSymlink : Bool
  symlinkTarget : Option (List String)
deriving DecidableEq, Repr

/-- `shouldIgnore` (`internal/scanner/scanner.go:381-392`): the fixed,
configuration-independent skip list. -/
def shouldIgnore (name : String) : Bool :=
  (["node_modules", ".DS_Store"] : List String).contains name

/-- Rendering of a segment-list path as the string Go manipulates. -/
def joinPath : List String → String
  | [] => ""
  | [a] => a
  | a :: rest => a ++ "/" ++ joinPath rest

/-- `git.IsGitRepository` through a symlink (`os.Stat` follows the
link): true exactly when the resolved target is a repository root. -/
def nodeIsRepo : Option FSNode → Bool
  | some (.dir r _) => r
  | _ => false

mutual

/-- The entry loop of `scanRecursiveHelper`
(`internal/scanner/scanner.go:279-378`). -/
def scanEntries (cat : String) (ignored : List String) (base cur : List String) :
    List (String × FSNode) → List Project
  | [] => []
  | (n, child) :: rest =>
    processEntry cat ignored base cur n child ++ scanEntries cat ignored base cur rest

/-- One iteration of the `scanRecursiveHelper` loop, on the entry named
`n` of the directory at `cur`: plain files are skipped; a symlink is
read, skipped when `shouldIgnore`, added as a repository when its target
is one, reported (with no repository handle) when its target is gone,
recursed into when its target is an ordinary directory, skipped
otherwise; a directory is skipped when `shouldIgnore`, added without
recursing when it is a repository root, and recursed into otherwise. -/
def processEntry (cat : String) (ignored : List String) (base cur : List String)
    (n : String) : FSNode → List Project
  | .file => []
  | .symlink tgt resolved =>
    if shouldIgnore n then []
    else
      if nodeIsRepo resolved then
        if !isIgnored (joinPath ((cur ++ [n]).drop base.length)) ignored then
          [⟨(cur ++ [n]).drop base.length, cur ++ [n], cat, some (cur ++ [n]), true, some tgt⟩]
        else []
      else
        match resolved with
        | none =>
          if !isIgnored (joinPath ((cur ++ [n]).drop base.length)) ignored then
            [⟨(cur ++ [n]).drop base.length, cur ++ [n], cat, none, true, some tgt⟩]
          else []
        | some (.dir _ entries) => scanEntries cat ignored base (cur ++ [n]) entries
        | some _ => []
  | .dir isRepo entries =>
    if shouldIgnore n then []
    else
      if isRepo then
        if !isIgnored (joinPath ((cur ++ [n]).drop base.length)) ignored then
          [⟨(cur ++ [n]).drop base.length, cur ++ [n], cat, some (cur ++ [n]), false, none⟩]
        else []
      else scanEntries cat ignored base (cur ++ [n]) entries

end

/-- `scanRecursive` (`internal/scanner/scanner.go:267-271`): start the
helper with `basePath = currentPath = root`; a root that cannot be
listed yields nothing (the helper returns on the `ReadDir` error). -/
def scanRecursive (cat : String) (ignored : List String) (root : List String) :
    FSNode → List Project
  | .dir _ entries => scanEntries cat ignored root root entries
  | _ => []

/-- A configured category (`internal/config`, consumed at
`scanner.go:228-264`): explicit project paths take precedence over a
scan root; per-category ignore patterns. -/
structure Category where
  name : String
  projects : List (List String)
  root : Option (List String)
  ignore : List String

/-- Oracle environment for discovery: `~`-expansion, the
`git.IsGitRepository` probe used by explicit-list mode, and the
filesystem tree found at a scan root. -/
structure ScanEnv where
  expandPath : List String → List String
  isGitRepo : List String → Bool
  tree : List String → FSNode

/-- Explicit-list mode (`internal/scanner/scanner.go:232-254`):
non-repositories are silently skipped, the display name is the
basename, and a basename matching a category ignore pattern is
skipped. -/
def scanExplicit (env : ScanEnv) (catName : String) (ignore : List String) :
    List (List String) → List Project
  | [] => []
  | p :: rest =>
    let expandedPath := env.expandPath p
    if !env.isGitRepo expandedPath then scanExplicit env catName ignore rest
    else
      let projectName := expandedPath.getLastD "."
      if isIgnored projectName ignore then scanExplicit env catName ignore rest
      else
        ⟨[projectName], expandedPath, catName, some expandedPath, false, none⟩
          :: scanExplicit env catName ignore rest

/-- `scanCategory` (`internal/scanner/scanner.go:228-264`). -/
def scanCategory (env : ScanEnv) (c : Category) : List Project :=
  if c.projects ≠ [] then scanExplicit env c.name c.ignore c.projects
  else
    match c.root with
    | some r => scanRecursive c.name c.ignore (env.expandPath r) (env.tree (env.expandPath r))
    | none => []

/-- `ScanAll` (`internal/scanner/scanner.go:213-226`): concatenation
over the configured categories (`scanCategory` never returns a non-nil
error, so the error-skip branch is dead). -/
def scanAll (env : ScanEnv) : List Category → List Project
  | [] => []
  | c :: rest => scanCategory env c ++ scanAll env rest

/-! ## Bounded-concurrency scheduler

Embedding of the goroutine/WaitGroup/semaphore pattern of
`cmd/check-projects/main.go` (`run`, lines 164-207, with the semaphore
`make(chan struct{}, 10)`; `fetchProjects`, lines 229-276, with the
configured capacity).  Each spawned goroutine is modelled by a phase:
spawned but not yet scheduled (`notStarted`), started and blocked on the
semaphore send (`waiting`), holding a semaphore slot and executing its
operation (`running`), and finished — result slot written, semaphore
slot released, `wg.Done` called (`done`).  The interleaving is a
nondeterministic small-step relation; `wg.Wait()` returns exactly in the
states where every phase is `done`. -/
inductive Phase where
  | notStarted
  | waiting
  | running
  | done
deriving DecidableEq, Repr

/-- The shared mutable state of one batch: the goroutine phases and the
pre-allocated, index-owned result array (`results := make([]...,
len(projects))`). -/
structure SchedState (β : Type) where
  phases : List Phase
  results : List (Option β)
deriving Repr

/-- Number of goroutines currently holding a semaphore slot. -/
def countRunning : List Phase → Nat
  | [] => 0
  | p :: rest => (if p = Phase.running then 1 else 0) + countRunning rest

/-- Number of operations in flight in a state. -/
def runningCount {β : Type} (s : SchedState β) : Nat :=
  countRunning s.phases

/-- The state just after the spawn loop: all `n` goroutines spawned,
none scheduled, every result slot empty. -/
def initState (β : Type) (n : Nat) : SchedState β :=
  ⟨List.replicate n .notStarted, List.replicate n none⟩

/-- One scheduler step, for a batch over `items` with per-item operation
`op` and semaphore capacity `cap`:
* `start`: a spawned goroutine gets scheduled and reaches the semaphore
  send;
* `acquire`: a goroutine blocked on `sem <- struct{}{}` proceeds — only
  possible while fewer than `cap` goroutines hold a slot;
* `finish`: a running goroutine computes `op` of its own item, writes
  its own result slot, releases its slot and signals the wait group. -/
inductive SchedStep {α β : Type} (items : List α) (op : α → β) (cap : Nat) :
    SchedState β → SchedState β → Prop where
  | start (s : SchedState β) (i : Nat) (h : s.phases.get? i = some .notStarted) :
      SchedStep items op cap s ⟨s.phases.set i .waiting, s.results⟩
  | acquire (s : SchedState β) (i : Nat) (h : s.phases.get? i = some .waiting)
      (hcap : runningCount s < cap) :
      SchedStep items op cap s ⟨s.phases.set i .running, s.results⟩
  | finish (s : SchedState β) (i : Nat) (a : α) (h : s.phases.get? i = some .running)
      (ha : items.get? i = some a) :
      SchedStep items op cap s ⟨s.phases.set i .done, s.results.set i (some (op a))⟩

/-- States reachable by the batch from the post-spawn state. -/
inductive SchedReach {α β : Type} (items : List α) (op : α → β) (cap : Nat) :
    SchedState β → Prop where
  | init : SchedReach items op cap (initState β items.length)
  | next {s t : SchedState β} (hr : SchedReach items op cap s)
      (hs : SchedStep items op cap s t) : SchedReach items op cap t

/-- `ProjectResult` (`internal/reporter`, filled in at
`cmd/check-projects/main.go:176-204`). -/
structure ProjectResult where
  name : List String
  status : Status
  category : String
  isSymlink : Bool
  symlinkTarget : Option (List String)
deriving DecidableEq, Repr

/-- The fixed result given to a descriptor with no repository handle
(`main.go:179`): `git.Status{Type: StatusBrokenSymlink, Symbol:
"🔗 ✗"}`, all other fields zero-valued. -/
def brokenSymlinkStatus : Status :=
  ⟨.brokenSymlink, "", "🔗 ✗", "", []⟩

/-- The body of one status-check goroutine
(`cmd/check-projects/main.go:176-203`): a nil repository handle
short-circuits to the fixed broken-symlink result; otherwise the status
oracle (`GetStatus`, which never returns a non-nil error) is consulted
for the repository. -/
def goroutineBody (getStat : List String → Status) (proj : Project) : ProjectResult :=
  match proj.repository with
  | none => ⟨proj.name, brokenSymlinkStatus, proj.category, proj.isSymlink, proj.symlinkTarget⟩
  | some rp => ⟨proj.name, getStat rp, proj.category, proj.isSymlink, proj.symlinkTarget⟩

/-- Setting one slot changes the running count by exactly the
difference of the old and new phase. -/
theorem countRunning_set (l : List Phase) (i : Nat) (a b : Phase) (h : l.get? i = some b) :
    countRunning (l.set i a) + (if b = Phase.running then 1 else 0) =
    countRunning l + (if a = Phase.running then 1 else 0) := by
  induction l generalizing i with
  | nil => simp at h
  | cons x xs ih =>
    cases i with
    | zero =>
      simp only [List.get?_cons_zero, Option.some.injEq] at h
      subst h
      simp only [List.set_cons_zero, countRunning]
      omega
    | succ j =>
      simp only [List.get?_cons_succ] at h
      have hx := ih j h
      simp only [List.set_cons_succ, countRunning]
      omega

/-- The per-slot invariant of a batch: the result array keeps the input
length, and slot `i` holds `op items[i]` exactly once goroutine `i` is
done (and is still empty otherwise). -/
def schedInv {α β : Type} (items : List α) (op : α → β) (s : SchedState β) : Prop :=
  s.phases.length = items.length ∧ s.results.length = items.length ∧
  ∀ i a, items.get? i = some a →
    (s.phases.get? i = some .done ∧ s.results.get? i = some (some (op a))) ∨
    (s.phases.get? i ≠ some .done ∧ s.results.get? i = some none)

/-- The invariant holds in every reachable state. -/
theorem schedReach_inv {α β : Type} {items : List α} {op : α → β} {cap : Nat}
    {s : SchedState β} (h : SchedReach items op cap s) : schedInv items op s := by
  induction h with
  | init =>
    refine ⟨by simp [initState], by simp [initState], ?_⟩
    intro i a ha
    have hi : i < items.length := by
      by_contra hge
      rw [List.get?_eq_none.mpr (by omega)] at ha
      exact Option.noConfusion ha
    right
    constructor
    · intro hc
      rw [show (initState β items.length).phases = List.replicate items.length .notStarted from rfl,
        List.get?_eq_get (by simpa using hi)] at hc
      simp at hc
    · rw [show (initState β items.length).results = List.replicate items.length none from rfl,
        List.get?_eq_get (by simpa using hi)]
      simp
  | @next s t hr hs ih =>
    obtain ⟨hl, hrl, hinv⟩ := ih
    cases hs with
    | start i h =>
      refine ⟨by simpa using hl, hrl, ?_⟩
      intro j a ha
      by_cases hij : i = j
      · subst hij
        rcases hinv i a ha with ⟨h1, _⟩ | ⟨_, h2⟩
        · rw [h] at h1; simp at h1
        · right
          refine ⟨?_, h2⟩
          rw [List.get?_set_eq, h]
          simp
      · rcases hinv j a ha with ⟨h1, h2⟩ | ⟨h1, h2⟩
        · left; exact ⟨by rwa [List.get?_set_ne _ _ hij], h2⟩
        · right; exact ⟨by rwa [List.get?_set_ne _ _ hij], h2⟩
    | acquire i h hcap =>
      refine ⟨by simpa using hl, hrl, ?_⟩
      intro j a ha
      by_cases hij : i = j
      · subst hij
        rcases hinv i a ha with ⟨h1, _⟩ | ⟨_, h2⟩
        · rw [h] at h1; simp at h1
        · right
          refine ⟨?_, h2⟩
          rw [List.get?_set_eq, h]
          simp
      · rcases hinv j a ha with ⟨h1, h2⟩ | ⟨h1, h2⟩
        · left; exact ⟨by rwa [List.get?_set_ne _ _ hij], h2⟩
        · right; exact ⟨by rwa [List.get?_set_ne _ _ hij], h2⟩
    | finish i a h ha =>
      refine ⟨by simpa using hl, by simpa using hrl, ?_⟩
      intro j a' ha'
      by_cases hij : i = j
      · subst hij
        rcases hinv i a' ha' with ⟨h1, _⟩ | ⟨_, h2⟩
        · rw [h] at h1; simp at h1
        · left
          have haa : a = a' := by
            rw [ha] at ha'
            exact Option.some.inj ha'
          subst haa
          constructor
          · rw [List.get?_set_eq, h]; rfl
          · rw [List.get?_set_eq, h2]; rfl
      · rcases hinv j a' ha' with ⟨h1, h2⟩ | ⟨h1, h2⟩
        · left; exact ⟨by rwa [List.get?_set_ne _ _ hij], by rwa [List.get?_set_ne _ _ hij]⟩
        · right; exact ⟨by rwa [List.get?_set_ne _ _ hij], by rwa [List.get?_set_ne _ _ hij]⟩

/-- C1: in every reachable state of a batch over `items`, the result
array has exactly `items.length` slots; and in any state in which the
batch can return to its caller (every goroutine `done` — the
`wg.Wait()` barrier), slot `i` holds exactly the operation's result on
descriptor `i`: the array equals the input-ordered map of `op`,
independent of the interleaving taken. -/
theorem claimC1 {α β : Type} (items : List α) (op : α → β) (cap : Nat)
    (s : SchedState β) (h : SchedReach items op cap s) :
    s.results.length = items.length ∧
    ((∀ i, i < items.length → s.phases.get? i = some .done) →
     s.results = items.map fun a => some (op a)) := by
  obtain ⟨hp, hr, hinv⟩ := schedReach_inv h
  refine ⟨hr, fun hall => ?_⟩
  apply List.ext_get?
  intro n
  by_cases hn : n < items.length
  · obtain ⟨a, ha⟩ : ∃ a, items.get? n = some a := by
      cases hq : items.get? n with
      | none => rw [List.get?_eq_none] at hq; omega
      | some a => exact ⟨a, rfl⟩
    rcases hinv n a ha with ⟨_, h2⟩ | ⟨h1, _⟩
    · rw [h2, List.get?_map, ha]; rfl
    · exact absurd (hall n hn) h1
  · rw [List.get?_eq_none.mpr (by omega),
      List.get?_eq_none.mpr (by rw [List.length_map]; omega)]

/-- Witness for C1: a two-item batch with capacity 1, run to completion
through an explicit interleaving. -/
theorem claimC1_w :
    (⟨[Phase.done, Phase.done], [some 6, some 8]⟩ : SchedState Nat).results =
      [5, 7].map (fun a => some (a + 1)) := by
  have h0 : SchedReach [5, 7] (fun a => a + 1) 1 (initState Nat 2) :=
    @SchedReach.init Nat Nat [5, 7] (fun a => a + 1) 1
  have h1 : SchedReach [5, 7] (fun a => a + 1) 1 ⟨[.waiting, .notStarted], [none, none]⟩ :=
    SchedReach.next h0 (SchedStep.start (initState Nat 2) 0 rfl)
  have h2 : SchedReach [5, 7] (fun a => a + 1) 1 ⟨[.running, .notStarted], [none, none]⟩ :=
    SchedReach.next h1 (SchedStep.acquire ⟨[.waiting, .notStarted], [none, none]⟩ 0 rfl (by decide))
  have h3 : SchedReach [5, 7] (fun a => a + 1) 1 ⟨[.done, .notStarted], [some 6, none]⟩ :=
    SchedReach.next h2 (SchedStep.finish ⟨[.running, .notStarted], [none, none]⟩ 0 5 rfl rfl)
  have h4 : SchedReach [5, 7] (fun a => a + 1) 1 ⟨[.done, .waiting], [some 6, none]⟩ :=
    SchedReach.next h3 (SchedStep.start ⟨[.done, .notStarted], [some 6, none]⟩ 1 rfl)
  have h5 : SchedReach [5, 7] (fun a => a + 1) 1 ⟨[.done, .running], [some 6, none]⟩ :=
    SchedReach.next h4 (SchedStep.acquire ⟨[.done, .waiting], [some 6, none]⟩ 1 rfl (by decide))
  have h6 : SchedReach [5, 7] (fun a => a + 1) 1 ⟨[.done, .done], [some 6, some 8]⟩ :=
    SchedReach.next h5 (SchedStep.finish ⟨[.done, .running], [some 6, none]⟩ 1 7 rfl rfl)
  exact (claimC1 [5, 7] (fun a => a + 1) 1 _ h6).2 (by decide)

/-- C3: in every reachable state of a batch run with semaphore capacity
`cap` — `cap = 10` for the status pass, the configured
`FetchConcurrency` for the fetch pass — at most `cap` operations are in
flight, whatever the number of descriptors and the interleaving. -/
theorem claimC3 {α β : Type} (items : List α) (op : α → β) (cap : Nat)
    (s : SchedState β) (h : SchedReach items op cap s) :
    runningCount s ≤ cap := by
  induction h with
  | init =>
    have hz : ∀ n : Nat, countRunning (List.replicate n .notStarted) = 0 := by
      intro n
      induction n with
      | zero => rfl
      | succ m ih => simp [List.replicate, countRunning, ih]
    simp [initState, runningCount, hz]
  | @next s t hr hs ih =>
    cases hs with
    | start i h =>
      have hc := countRunning_set s.phases i .waiting .notStarted h
      simp only [runningCount] at ih ⊢
      simp at hc
      omega
    | acquire i h hcap =>
      have hc := countRunning_set s.phases i .running .waiting h
      simp only [runningCount] at ih hcap ⊢
      simp at hc
      omega
    | finish i a h ha =>
      have hc := countRunning_set s.phases i .done .running h
      simp only [runningCount] at ih ⊢
      simp at hc
      omega

/-- Witness for C3 at a concrete reachable state with the status pass's
capacity 10. -/
theorem claimC3_w : runningCount (initState Bool 50) ≤ 10 :=
  claimC3 (List.replicate 50 0) (fun _ => true) 10 (initState Bool 50)
    (by
      have h := @SchedReach.init Nat Bool (List.replicate 50 0) (fun _ => true) 10
      simpa using h)

/-- The entry loop emits independently per entry: splitting the listing
splits the output. -/
theorem scanEntries_append (cat : String) (ignored : List String) (base cur : List String)
    (l1 l2 : List (String × FSNode)) :
    scanEntries cat ignored base cur (l1 ++ l2) =
      scanEntries cat ignored base cur l1 ++ scanEntries cat ignored base cur l2 := by
  induction l1 with
  | nil => rfl
  | cons e rest ih =>
    cases e with
    | mk n child => simp [scanEntries, ih]

/-- C6: a broken symlink entry (resolved target gone), not ignored,
contributes exactly one descriptor — with no repository handle, flagged
as a symlink, carrying its target — and the walk of the surrounding
listing continues on both sides (discovery stays total: no error
propagates).  On the scheduler side, a descriptor with no repository
handle short-circuits to the fixed broken-symlink result without
invoking the status operation: the result is the same for every status
oracle. -/
theorem claimC6 :
    (∀ (cat : String) (ignored : List String) (base cur : List String) (n : String)
       (tgt : List String) (pre post : List (String × FSNode)),
      shouldIgnore n = false →
      isIgnored (joinPath ((cur ++ [n]).drop base.length)) ignored = false →
      scanEntries cat ignored base cur (pre ++ (n, .symlink tgt none) :: post) =
        scanEntries cat ignored base cur pre
          ++ ⟨(cur ++ [n]).drop base.length, cur ++ [n], cat, none, true, some tgt⟩
            :: scanEntries cat ignored base cur post) ∧
    (∀ (f g : List String → Status) (proj : Project),
      proj.repository = none →
      goroutineBody f proj = goroutineBody g proj ∧
      goroutineBody f proj =
        ⟨proj.name, brokenSymlinkStatus, proj.category, proj.isSymlink, proj.symlinkTarget⟩) := by
  constructor
  · intro cat ignored base cur n tgt pre post hsi hig
    rw [scanEntries_append]
    simp [scanEntries, processEntry, nodeIsRepo, hsi, hig]
  · intro f g proj hrep
    constructor
    · simp [goroutineBody, hrep]
    · simp [goroutineBody, hrep]

/-- Witness for C6: a concrete listing with a broken symlink between two
repositories, and a concrete broken descriptor through the scheduler
body. -/
theorem claimC6_w :
    scanEntries "c" [] [] [] [("a", .dir true []), ("link", .symlink ["gone"] none), ("b", .dir true [])] =
      scanEntries "c" [] [] [] [("a", .dir true [])]
        ++ ⟨(([] : List String) ++ ["link"]).drop ([] : List String).length, [] ++ ["link"], "c", none, true, some ["gone"]⟩
          :: scanEntries "c" [] [] [] [("b", .dir true [])] ∧
    goroutineBody (fun _ => brokenSymlinkStatus) ⟨["link"], ["link"], "c", none, true, some ["gone"]⟩ =
      goroutineBody (fun _ => ⟨.sync, "Clean", "✔", "main", []⟩) ⟨["link"], ["link"], "c", none, true, some ["gone"]⟩ := by
  constructor
  · exact claimC6.1 "c" [] [] [] "link" ["gone"] [("a", .dir true [])] [("b", .dir true [])]
      (by decide) (by decide)
  · exact (claimC6.2 (fun _ => brokenSymlinkStatus)
      (fun _ => ⟨.sync, "Clean", "✔", "main", []⟩) ⟨["link"], ["link"], "c", none, true, some ["gone"]⟩ rfl).1

/-- C7: an entry classified as a repository root is recorded (subject to
ignore rules) and its subtree is never walked: the result of processing
it does not depend on its listing at all, and every descriptor it emits
sits exactly at the entry's own path — so nothing below a discovered
repository is ever discovered.  The same holds for a symlink entry
resolving to a repository root. -/
theorem claimC7 :
    ∀ (cat : String) (ignored : List String) (base cur : List String) (n : String)
      (tgt : List String) (es es' : List (String × FSNode)),
      processEntry cat ignored base cur n (.dir true es) =
        processEntry cat ignored base cur n (.dir true es') ∧
      (∀ p ∈ processEntry cat ignored base cur n (.dir true es), p.path = cur ++ [n]) ∧
      processEntry cat ignored base cur n (.symlink tgt (some (.dir true es))) =
        processEntry cat ignored base cur n (.symlink tgt (some (.dir true es'))) ∧
      (∀ p ∈ processEntry cat ignored base cur n (.symlink tgt (some (.dir true es))),
        p.path = cur ++ [n]) := by
  intro cat ignored base cur n tgt es es'
  refine ⟨rfl, ?_, rfl, ?_⟩
  · intro p hp
    simp only [processEntry] at hp
    split_ifs at hp
    · cases hp
    · rcases List.mem_singleton.mp hp with rfl
      rfl
    · cases hp
  · intro p hp
    simp only [processEntry, nodeIsRepo] at hp
    split_ifs at hp
    · cases hp
    · rcases List.mem_singleton.mp hp with rfl
      rfl
    · cases hp

/-- Witness for C7: a repository root containing a nested repository;
the emitted descriptor sits at the root's path and the nested one is
never emitted. -/
theorem claimC7_w :
    processEntry "c" [] [] [] "repo" (.dir true [("nested", .dir true [])]) =
      processEntry "c" [] [] [] "repo" (.dir true []) ∧
    (⟨["repo"], ["repo"], "c", some ["repo"], false, none⟩ : Project).path = [] ++ ["repo"] := by
  have h := claimC7 "c" [] [] [] "repo" ["x"] [("nested", .dir true [])] []
  refine ⟨h.1, ?_⟩
  exact h.2.1 ⟨["repo"], ["repo"], "c", some ["repo"], false, none⟩ (by decide)

/-- Pairwise distinctness of a name list, as a computable check. -/
def nodupBool : List String → Bool
  | [] => true
  | a :: rest => !rest.contains a && nodupBool rest

mutual

/-- Filesystem well-formedness: every directory listing (also behind
symlinks) carries pairwise-distinct entry names — what `os.ReadDir`
guarantees on a real filesystem. -/
def wfNode : FSNode → Bool
  | .file => true
  | .symlink _ none => true
  | .symlink _ (some t) => wfNode t
  | .dir _ entries => nodupBool (entries.map Prod.fst) && wfEntries entries

/-- All child nodes of a listing are well-formed. -/
def wfEntries : List (String × FSNode) → Bool
  | [] => true
  | (_, c) :: rest => wfNode c && wfEntries rest

end

mutual

/-- Every descriptor emitted while walking a listing at `base ++ w` has
a name of the form `w ++ n :: t` for some entry name `n` of that
listing. -/
theorem scanEntries_name_shape (cat : String) (ign : List String) (base w : List String)
    (entries : List (String × FSNode)) :
    ∀ p ∈ scanEntries cat ign base (base ++ w) entries,
      ∃ n t, n ∈ entries.map Prod.fst ∧ p.name = w ++ n :: t := by
  cases entries with
  | nil => intro p hp; simp [scanEntries] at hp
  | cons e rest =>
    cases e with
    | mk n child =>
      intro p hp
      simp only [scanEntries] at hp
      rcases List.mem_append.mp hp with h | h
      · obtain ⟨t, ht⟩ := processEntry_name_shape cat ign base w n child p h
        exact ⟨n, t, by simp, ht⟩
      · obtain ⟨n', t, hm, ht⟩ := scanEntries_name_shape cat ign base w rest p h
        exact ⟨n', t, by simp [hm], ht⟩

/-- Every descriptor emitted while processing the entry `n` of the
directory at `base ++ w` has a name of the form `w ++ n :: t`. -/
theorem processEntry_name_shape (cat : String) (ign : List String) (base w : List String)
    (n : String) (child : FSNode) :
    ∀ p ∈ processEntry cat ign base (base ++ w) n child, ∃ t, p.name = w ++ n :: t := by
  have hdrop : ((base ++ w) ++ [n]).drop base.length = w ++ [n] := by
    rw [List.append_assoc, List.drop_left]
  have hcur : (base ++ w) ++ [n] = base ++ (w ++ [n]) := by
    rw [List.append_assoc]
  cases child with
  | file => intro p hp; simp [processEntry] at hp
  | dir isRepo entries =>
    intro p hp
    simp only [processEntry] at hp
    split_ifs at hp <;>
      first
        | (rcases List.mem_singleton.mp hp with rfl
           exact ⟨[], by simp only [List.append_assoc] at hdrop ⊢; rw [hdrop]⟩)
        | exact absurd hp (List.not_mem_nil p)
        | (rw [hcur] at hp
           obtain ⟨n', t, _, ht⟩ := scanEntries_name_shape cat ign base (w ++ [n]) entries p hp
           exact ⟨n' :: t, by rw [ht, List.append_assoc]; rfl⟩)
        | simp_all
  | symlink tgt resolved =>
    intro p hp
    cases resolved with
    | none =>
      simp only [processEntry, nodeIsRepo] at hp
      split_ifs at hp <;>
        first
          | (rcases List.mem_singleton.mp hp with rfl
             exact ⟨[], by simp only [List.append_assoc] at hdrop ⊢; rw [hdrop]⟩)
          | exact absurd hp (List.not_mem_nil p)
          | simp_all
    | some node =>
      cases node with
      | file =>
        simp only [processEntry, nodeIsRepo] at hp
        split_ifs at hp <;>
          first
            | exact absurd hp (List.not_mem_nil p)
            | simp_all
      | symlink tgt2 r2 =>
        simp only [processEntry, nodeIsRepo] at hp
        split_ifs at hp <;>
          first
            | exact absurd hp (List.not_mem_nil p)
            | simp_all
      | dir isRepo entries =>
        simp only [processEntry, nodeIsRepo] at hp
        split_ifs at hp <;>
          first
            | (rcases List.mem_singleton.mp hp with rfl
               exact ⟨[], by simp only [List.append_assoc] at hdrop ⊢; rw [hdrop]⟩)
            | exact absurd hp (List.not_mem_nil p)
            | (rw [hcur] at hp
               obtain ⟨n', t, _, ht⟩ := scanEntries_name_shape cat ign base (w ++ [n]) entries p hp
               exact ⟨n' :: t, by rw [ht, List.append_assoc]; rfl⟩)
            | simp_all

end

/-- A `contains`-negative name list does not hold the name. -/
theorem not_mem_of_contains_false {a : String} {l : List String}
    (h : l.contains a = false) : a ∉ l := by
  simpa using h

mutual

/-- In a well-formed tree, the walk of one listing yields descriptors
with pairwise-distinct names. -/
theorem scanEntries_names_pairwise (cat : String) (ign : List String) (base w : List String)
    (entries : List (String × FSNode)) (hwf : wfEntries entries = true)
    (hnd : nodupBool (entries.map Prod.fst) = true) :
    ((scanEntries cat ign base (base ++ w) entries).map Project.name).Pairwise (· ≠ ·) := by
  cases entries with
  | nil => simp [scanEntries]
  | cons e rest =>
    cases e with
    | mk n child =>
      simp only [wfEntries, Bool.and_eq_true] at hwf
      simp only [List.map_cons, nodupBool, Bool.and_eq_true, Bool.not_eq_true'] at hnd
      simp only [scanEntries, List.map_append]
      rw [List.pairwise_append]
      refine ⟨processEntry_names_pairwise cat ign base w n child hwf.1,
              scanEntries_names_pairwise cat ign base w rest hwf.2 hnd.2, ?_⟩
      intro a ha b hb
      obtain ⟨p, hp, rfl⟩ := List.mem_map.mp ha
      obtain ⟨q, hq, rfl⟩ := List.mem_map.mp hb
      obtain ⟨t, ht⟩ := processEntry_name_shape cat ign base w n child p hp
      obtain ⟨n', t', hm', ht'⟩ := scanEntries_name_shape cat ign base w rest q hq
      rw [ht, ht']
      intro heq
      have hc := List.append_cancel_left heq
      have hnn : n = n' := (List.cons_eq_cons.mp hc).1
      exact not_mem_of_contains_false hnd.1 (hnn ▸ hm')

/-- In a well-formed tree, processing one entry yields descriptors with
pairwise-distinct names. -/
theorem processEntry_names_pairwise (cat : String) (ign : List String) (base w : List String)
    (n : String) (child : FSNode) (hwf : wfNode child = true) :
    ((processEntry cat ign base (base ++ w) n child).map Project.name).Pairwise (· ≠ ·) := by
  have hcur : (base ++ w) ++ [n] = base ++ (w ++ [n]) := by
    rw [List.append_assoc]
  cases child with
  | file => simp [processEntry]
  | dir isRepo entries =>
    simp only [wfNode, Bool.and_eq_true] at hwf
    simp only [processEntry]
    split_ifs <;>
      first
        | (rw [hcur]
           exact scanEntries_names_pairwise cat ign base (w ++ [n]) entries hwf.2 hwf.1)
        | simp
  | symlink tgt resolved =>
    cases resolved with
    | none =>
      simp only [processEntry, nodeIsRepo]
      split_ifs <;> simp
    | some node =>
      cases node with
      | file =>
        simp only [processEntry, nodeIsRepo]
        split_ifs <;> simp
      | symlink tgt2 r2 =>
        simp only [processEntry, nodeIsRepo]
        split_ifs <;> simp
      | dir isRepo entries =>
        simp only [wfNode, Bool.and_eq_true] at hwf
        simp only [processEntry, nodeIsRepo]
        split_ifs <;>
          first
            | (rw [hcur]
               exact scanEntries_names_pairwise cat ign base (w ++ [n]) entries hwf.2 hwf.1)
            | simp

end

/-- C9 (amended): within one scan-mode category walk over a well-formed
tree (directory listings with pairwise-distinct entry names, as a real
filesystem guarantees), no two emitted descriptors share their
relative-path identity (`name`). -/
theorem claimC9 :
    ∀ (cat : String) (ignored : List String) (root : List String) (b : Bool)
      (entries : List (String × FSNode)),
      wfEntries entries = true → nodupBool (entries.map Prod.fst) = true →
      ((scanRecursive cat ignored root (.dir b entries)).map Project.name).Pairwise (· ≠ ·) := by
  intro cat ignored root b entries hwf hnd
  have h := scanEntries_names_pairwise cat ignored root [] entries hwf hnd
  simpa [scanRecursive] using h

/-- Environment for the C9 counterexample: identity path expansion,
every explicit path a repository. -/
def c9env : ScanEnv := ⟨fun p => p, fun _ => true, fun _ => .file⟩

/-- Counterexample for C9 as stated: one full discovery run (here a
single explicit-list category with paths `p/foo` and `q/foo`, both
repositories) returns two descriptors that both carry the basename
identity `foo`. -/
theorem claimC9_cex :
    ¬ (((scanAll c9env [⟨"core", [["p", "foo"], ["q", "foo"]], none, []⟩]).map Project.name).Pairwise
        (· ≠ ·)) := by
  intro h
  have hev : (scanAll c9env [⟨"core", [["p", "foo"], ["q", "foo"]], none, []⟩]).map Project.name =
      [["foo"], ["foo"]] := rfl
  rw [hev] at h
  rcases List.pairwise_cons.mp h with ⟨hne, _⟩
  exact hne ["foo"] (by simp) rfl

/-- Witness for the amended C9 on a concrete well-formed tree holding a
repository and a nested directory with another repository. -/
theorem claimC9_w :
    ((scanRecursive "c" [] ["root"]
        (.dir false [("r1", .dir true []), ("d", .dir false [("r2", .dir true [])])])).map
      Project.name).Pairwise (· ≠ ·) :=
  claimC9 "c" [] ["root"] false [("r1", .dir true []), ("d", .dir false [("r2", .dir true [])])]
    (by decide) (by decide)

end CheckProjects
